import Mathlib

/-!
Verification of the creative-report distribution core.

The repository has two source variants of the same design:
* `src/app/page.tsx` — `generateWeights` (multiplicative noise `1 + random()*factor`)
  and `distribute` (running-remainder allocator: the last bucket absorbs the pool);
* `src/unnamed/part_000` — `generateWeights` (noise-band / uniform-range /
  exponential-tail profiles, clamped positive) and `distributeIntegerTotal`
  (largest-remainder allocator), plus the CSV serializer `toCSV`.

Modelling conventions: JavaScript numbers are modelled as exact rationals `ℚ`
(integer quantities as `ℤ`), `Math.floor` as `Int.floor`, `Math.round` as
`⌊x + 1/2⌋` (JS rounds half toward +∞), `Math.random()` as an injected
sequence `rand : ℕ → ℚ` of draws indexed by loop iteration, and `Math.log`
(which has no exact rational semantics) as an abstract parameter `negLog`.
Strings are modelled as `List Char`. The JS stable sort with comparator
`(a, b) => b.frac - a.frac` is modelled by a stable insertion sort descending
by the fractional component (all stable descending sorts agree). All
definitions are total, mirroring the source, which has no throwing constructs
in these functions.
-/

namespace CreativeReport

/-- JS `Math.round`: rounds half toward positive infinity. -/
def jsRound (q : ℚ) : ℤ := ⌊q + 1/2⌋

/-- The `VarianceLevel` union type of `src/app/page.tsx`. -/
inductive VarianceLevel
  | balanced
  | medium
  | high
deriving DecidableEq

/-- The variance factor chosen by the `switch` in `generateWeights`
(`src/app/page.tsx`): 0.2 / 1.0 / 3.0. -/
def factorOf : VarianceLevel → ℚ
  | .balanced => 1/5
  | .medium => 1
  | .high => 3

/-- The raw (pre-normalization) weights of `generateWeights` in `src/app/page.tsx`:
`1 + Math.random() * factor` per bucket. `rand i` is the i-th `Math.random()` draw. -/
def rawWeightsB (count : ℤ) (variance : VarianceLevel) (rand : ℕ → ℚ) : List ℚ :=
  (List.range count.toNat).map (fun i => 1 + rand i * factorOf variance)

/-- `generateWeights` from `src/app/page.tsx`: raw weight `1 + Math.random()*factor`
per bucket, then divide by the sum. -/
def generateWeightsB (count : ℤ) (variance : VarianceLevel) (rand : ℕ → ℚ) : List ℚ :=
  if count ≤ 0 then []
  else (rawWeightsB count variance rand).map
    (fun w => w / (rawWeightsB count variance rand).sum)

/-- The loop of `distribute` (`src/app/page.tsx`): every bucket except the last
gets `Math.round(total * w)` and is subtracted from the running pool; the last
bucket is forced to the remaining pool. -/
def distributeGo (total remaining : ℤ) : List ℚ → List ℤ
  | [] => []
  | [_] => [remaining]
  | w :: ws =>
    jsRound ((total : ℚ) * w) :: distributeGo total (remaining - jsRound ((total : ℚ) * w)) ws

/-- `distribute` from `src/app/page.tsx` (running-remainder allocator). -/
def distribute (total : ℤ) (weights : List ℚ) : List ℤ :=
  if total ≤ 0 ∨ weights.length = 0 then List.replicate weights.length 0
  else distributeGo total total weights

/-- The `DistributionStyle` union type of `src/unnamed/part_000`. -/
inductive DistributionStyle
  | balanced
  | moderate
  | high
deriving DecidableEq

/-- One raw weight draw of `generateWeights` (`src/unnamed/part_000`), before the
clamp: `balanced` is `1 + (u - 0.5) * 0.2`, `moderate` is `0.5 + u`, `high` is
`-Math.log(u + 1e-9)` where `negLog` models the environment's `x ↦ -Math.log x`. -/
def rawWeightA (style : DistributionStyle) (negLog : ℚ → ℚ) (u : ℚ) : ℚ :=
  match style with
  | .balanced => 1 + (u - 1/2) * (1/5)
  | .moderate => 1/2 + u
  | .high => negLog (u + 1/1000000000)

/-- The guard `if (w <= 0) w = 0.0001` of `generateWeights` (`src/unnamed/part_000`). -/
def clampPos (w : ℚ) : ℚ := if w ≤ 0 then 1/10000 else w

/-- The `raw` array of `generateWeights` in `src/unnamed/part_000`: one clamped
per-style draw per bucket. -/
def rawWeightsA (count : ℤ) (style : DistributionStyle) (rand : ℕ → ℚ)
    (negLog : ℚ → ℚ) : List ℚ :=
  (List.range count.toNat).map (fun i => clampPos (rawWeightA style negLog (rand i)))

/-- `generateWeights` from `src/unnamed/part_000`: per-style raw draw, clamp to a
positive epsilon, then normalize by the sum. -/
def generateWeightsA (count : ℤ) (style : DistributionStyle) (rand : ℕ → ℚ)
    (negLog : ℚ → ℚ) : List ℚ :=
  if count ≤ 0 then []
  else (rawWeightsA count style rand negLog).map
    (fun v => v / (rawWeightsA count style rand negLog).sum)

/-- One iteration of the `while` loop of `distributeIntegerTotal`:
`result[frac[i].idx] += 1`. Out-of-range indices leave the list unchanged,
as `List.set` does. -/
def bump (r : List ℤ) (e : ℕ × ℚ) : List ℤ := r.set e.1 (r.getD e.1 0 + 1)

/-- Insert an entry into a list already sorted descending by the fractional
component, after every earlier entry whose fractional part is at least as
large (so equal fractional parts keep their original order). -/
def insertDesc (x : ℕ × ℚ) : List (ℕ × ℚ) → List (ℕ × ℚ)
  | [] => [x]
  | y :: ys => if y.2 ≤ x.2 then x :: y :: ys else y :: insertDesc x ys

/-- The `frac.sort((a, b) => b.frac - a.frac)` of `distributeIntegerTotal`.
JS `Array.prototype.sort` is required to be stable, and every stable
descending-by-`frac` sort returns the same list, so a stable insertion sort
models it exactly. -/
def sortByFracDesc (l : List (ℕ × ℚ)) : List (ℕ × ℚ) := l.foldr insertDesc []

/-- The `rawValues` array of `distributeIntegerTotal` (`src/unnamed/part_000`). -/
def rawShares (total : ℤ) (weights : List ℚ) : List ℚ :=
  weights.map (fun w => w * (total : ℚ))

/-- The `floors` array of `distributeIntegerTotal`. -/
def floorShares (total : ℤ) (weights : List ℚ) : List ℤ :=
  (rawShares total weights).map (fun v => (⌊v⌋ : ℤ))

/-- The `frac` array of `distributeIntegerTotal`: `(idx, raw - floor(raw))` per bucket. -/
def fracEntries (total : ℤ) (weights : List ℚ) : List (ℕ × ℚ) :=
  (rawShares total weights).enum.map (fun p => (p.1, p.2 - (⌊p.2⌋ : ℚ)))

/-- The `remainder = total - assigned` of `distributeIntegerTotal`. -/
def remainderOf (total : ℤ) (weights : List ℚ) : ℤ :=
  total - (floorShares total weights).sum

/-- `distributeIntegerTotal` from `src/unnamed/part_000` (largest-remainder
allocator): floor every raw share `w * total`, then hand one extra unit to the
buckets with the largest fractional parts until the remainder is exhausted.
The `while (remainder > 0 && i < frac.length)` loop is exactly a fold of `bump`
over the first `remainder.toNat` entries of the sorted fractional-part list. -/
def distributeIntegerTotal (total : ℤ) (weights : List ℚ) : List ℤ :=
  if total ≤ 0 ∨ weights = [] then weights.map (fun _ => 0)
  else ((sortByFracDesc (fracEntries total weights)).take (remainderOf total weights).toNat).foldl
    bump (floorShares total weights)

/-- The `s.replace(/"/g, '""')` of both CSV serializers: double every
double-quote character. -/
def escQuotes : List Char → List Char
  | [] => []
  | c :: cs => if c = '"' then '"' :: '"' :: escQuotes cs else c :: escQuotes cs

/-- The quoting test of both CSV serializers:
`s.includes('"') || s.includes(",") || s.includes("\n")`. -/
def needsQuote (s : List Char) : Bool :=
  s.any (fun c => c == '"' || c == ',' || c == '\n')

/-- The cell escaper shared by `toCSV` (`src/unnamed/part_000`) and `exportCsv`
(`src/app/page.tsx`): wrap in double quotes with internal quotes doubled when the
value contains a comma, double-quote or newline, else return it unchanged. -/
def csvEscape (s : List Char) : List Char :=
  if needsQuote s then '"' :: (escQuotes s ++ ['"']) else s

/-- `Array.prototype.join(",")` on a list of cell strings. -/
def joinComma : List (List Char) → List Char
  | [] => []
  | [f] => f
  | f :: fs => f ++ ',' :: joinComma fs

/-- The `CreativeRow` record of `src/app/page.tsx`. -/
structure CreativeRow where
  name : List Char
  impressions : ℤ
  clicks : ℤ
  installs : ℤ
  primaryEvents : ℤ
  secondaryEvents : ℤ

/-- The column values of one data row of `exportCsv` (`src/app/page.tsx`) before
escaping; numeric cells are rendered by `String(v)`. -/
def rowCols (secondaryEnabled : Bool) (r : CreativeRow) : List (List Char) :=
  [r.name, (toString r.impressions).data, (toString r.clicks).data,
    (toString r.installs).data, (toString r.primaryEvents).data] ++
  (if secondaryEnabled then [(toString r.secondaryEvents).data] else [])

/-- The header cells of `exportCsv` (`src/app/page.tsx`): fixed captions plus the
user-controlled event labels; `.filter(Boolean)` drops the absent secondary header
and any empty label. These cells are NOT passed through the escaper. -/
def exportCsvHeaders (primaryLabel secondaryLabel : List Char) (secondaryEnabled : Bool) :
    List (List Char) :=
  (["Creative".data, "Impressions".data, "Clicks".data, "Installs".data, primaryLabel] ++
    (if secondaryEnabled then [secondaryLabel] else [])).filter (fun h => !h.isEmpty)

/-- The lines of the CSV text built by `exportCsv` (`src/app/page.tsx`): the header
cells joined with commas without escaping, then one line per creative whose cells
all go through the escaper. The source joins these lines with a newline. -/
def exportCsvLines (primaryLabel secondaryLabel : List Char) (secondaryEnabled : Bool)
    (rows : List CreativeRow) : List (List Char) :=
  joinComma (exportCsvHeaders primaryLabel secondaryLabel secondaryEnabled) ::
    rows.map (fun r => joinComma ((rowCols secondaryEnabled r).map csvEscape))

/-- The `CreativeRow` record of `src/unnamed/part_000`. -/
structure CreativeRowA where
  id : ℤ
  impressions : ℤ
  installs : ℤ
  paidEvents : ℤ

/-- The lines of the text built by `toCSV` (`src/unnamed/part_000`): empty output
for no rows, else the fixed header line and one line per row with every cell
escaped. The source joins these lines with a newline. -/
def toCSVLines (rows : List CreativeRowA) : List (List Char) :=
  if rows.isEmpty then []
  else
    joinComma ["creative_id".data, "impressions".data, "installs".data, "paid_events".data] ::
      rows.map (fun r => joinComma ([(toString r.id).data, (toString r.impressions).data,
        (toString r.installs).data, (toString r.paidEvents).data].map csvEscape))

/-- A standard CSV field splitter (RFC 4180 quoting rules), the reference parser for
the round-trip property. The first argument says whether the scan is inside a
quoted section, the second is the current field reversed, the third the remaining
input: outside quotes a comma ends the field and a quote opens a quoted section;
inside quotes a doubled quote is a literal quote and a single quote closes. -/
def splitCSV : Bool → List Char → List Char → List (List Char)
  | _, acc, [] => [acc.reverse]
  | false, acc, c :: rest =>
    if c = ',' then acc.reverse :: splitCSV false [] rest
    else if c = '"' then splitCSV true acc rest
    else splitCSV false (c :: acc) rest
  | true, acc, c :: rest =>
    if c = '"' then
      match rest with
      | [] => [acc.reverse]
      | c2 :: rest2 =>
        if c2 = '"' then splitCSV true ('"' :: acc) rest2
        else splitCSV false acc (c2 :: rest2)
    else splitCSV true (c :: acc) rest

/-- Parse one CSV record into its fields with the standard splitter. -/
def parseRecord (s : List Char) : List (List Char) := splitCSV false [] s

theorem distributeGo_length (total : ℤ) (r : ℤ) (ws : List ℚ) :
    (distributeGo total r ws).length = ws.length := by
  induction ws generalizing r with
  | nil => rfl
  | cons w ws ih =>
    cases ws with
    | nil => rfl
    | cons w2 ws2 => simp only [distributeGo, List.length_cons, ih]

theorem distribute_length (total : ℤ) (ws : List ℚ) :
    (distribute total ws).length = ws.length := by
  unfold distribute
  split
  · simp
  · exact distributeGo_length total total ws

theorem bump_length (r : List ℤ) (e : ℕ × ℚ) : (bump r e).length = r.length := by
  simp [bump]

theorem foldl_bump_length (l : List (ℕ × ℚ)) (r : List ℤ) :
    (l.foldl bump r).length = r.length := by
  induction l generalizing r with
  | nil => rfl
  | cons e l ih => simp only [List.foldl_cons, ih, bump_length]

theorem distributeIntegerTotal_length (total : ℤ) (ws : List ℚ) :
    (distributeIntegerTotal total ws).length = ws.length := by
  unfold distributeIntegerTotal
  split
  · simp
  · simp [foldl_bump_length, floorShares, rawShares]

theorem generateWeightsA_length (count : ℤ) (style : DistributionStyle) (rand : ℕ → ℚ)
    (negLog : ℚ → ℚ) : (generateWeightsA count style rand negLog).length = count.toNat := by
  unfold generateWeightsA
  split
  · simp only [List.length_nil]
    omega
  · simp [rawWeightsA]

theorem generateWeightsB_length (count : ℤ) (variance : VarianceLevel) (rand : ℕ → ℚ) :
    (generateWeightsB count variance rand).length = count.toNat := by
  unfold generateWeightsB
  split
  · simp only [List.length_nil]
    omega
  · simp [rawWeightsB]

/-- Claim C7: both allocators return a vector of exactly the same length as the weight
vector, for every total and every weight vector. -/
theorem claim_C7_length (total : ℤ) (ws : List ℚ) :
    (distributeIntegerTotal total ws).length = ws.length ∧
    (distribute total ws).length = ws.length :=
  ⟨distributeIntegerTotal_length total ws, distribute_length total ws⟩

/-- Claim C9: the core functions are total Lean functions (so they cannot throw or
diverge; every loop in the source is a structural recursion over the weights here),
a negative count is clamped to the empty vector, and a negative total yields the
all-zero vector of the weights' length, exactly as `allocate(0, weights)` does. -/
theorem claim_C9_totality_clamping (count total : ℤ) (style : DistributionStyle)
    (variance : VarianceLevel) (rand : ℕ → ℚ) (negLog : ℚ → ℚ) (ws : List ℚ)
    (hc : count < 0) (ht : total < 0) :
    generateWeightsA count style rand negLog = [] ∧
    generateWeightsB count variance rand = [] ∧
    distributeIntegerTotal total ws = List.replicate ws.length 0 ∧
    distribute total ws = List.replicate ws.length 0 := by
  refine ⟨?_, ?_, ?_, ?_⟩
  · unfold generateWeightsA
    rw [if_pos (le_of_lt hc)]
  · unfold generateWeightsB
    rw [if_pos (le_of_lt hc)]
  · unfold distributeIntegerTotal
    rw [if_pos (Or.inl (le_of_lt ht))]
    exact List.map_const' ws 0
  · unfold distribute
    rw [if_pos (Or.inl (le_of_lt ht))]

/-- Witness for C9 at count = -1, total = -5, weights = [2/3]. -/
theorem claim_C9_totality_clamping_witness :
    generateWeightsA (-1) .balanced (fun _ => 0) (fun _ => 0) = [] ∧
    generateWeightsB (-1) .balanced (fun _ => 0) = [] ∧
    distributeIntegerTotal (-5) [2/3] = List.replicate [(2:ℚ)/3].length 0 ∧
    distribute (-5) [2/3] = List.replicate [(2:ℚ)/3].length 0 :=
  claim_C9_totality_clamping (-1) (-5) .balanced .balanced (fun _ => 0) (fun _ => 0)
    [2/3] (by decide) (by decide)

/-- Claim C6: largest-remainder worked examples. `allocate(10, [0.5, 0.3, 0.2])` floors to
`[5,3,2]` with no remainder, and `allocate(10, [0.34, 0.33, 0.33])` floors to
`[3,3,3]` with one leftover unit that goes to index 0, whose fractional part 0.4
is the largest, giving `[4,3,3]`. -/
theorem claim_C6_examples :
    distributeIntegerTotal 10 [1/2, 3/10, 1/5] = [5, 3, 2] ∧
    distributeIntegerTotal 10 [17/50, 33/100, 33/100] = [4, 3, 3] := by
  constructor
  · simp [distributeIntegerTotal, rawShares, floorShares, fracEntries, remainderOf, sortByFracDesc, insertDesc, List.enum, List.enumFrom]
    norm_num [Int.fract, bump]
  · simp [distributeIntegerTotal, rawShares, floorShares, fracEntries, remainderOf, sortByFracDesc, insertDesc, List.enum, List.enumFrom]
    norm_num [Int.fract, bump]

/-- Claim C5: degenerate inputs. Both weight generators return `[]` for `count = 0`; both
allocators return `[]` on an empty weight vector for every total, and an all-zero
vector of the weights' length when the total is 0. -/
theorem claim_C5_degenerate :
    (∀ style rand negLog, generateWeightsA 0 style rand negLog = []) ∧
    (∀ variance rand, generateWeightsB 0 variance rand = []) ∧
    (∀ total : ℤ, distributeIntegerTotal total [] = [] ∧ distribute total [] = []) ∧
    (∀ ws : List ℚ, distributeIntegerTotal 0 ws = List.replicate ws.length 0 ∧
      distribute 0 ws = List.replicate ws.length 0) := by
  refine ⟨fun _ _ _ => rfl, fun _ _ => rfl, fun total => ⟨?_, ?_⟩, fun ws => ⟨?_, ?_⟩⟩
  · simp [distributeIntegerTotal]
  · simp [distribute]
  · simp [distributeIntegerTotal, List.map_const']
  · simp [distribute]

/-- Counterexample to claim C1: the claim quantifies over `count = 0` together with positive
totals, but `generate(0, profile)` is empty and `allocate(7, [])` is `[]`, whose sum
is 0, not 7. Concretely: with count 0 (any draws), total 7 is not conserved. -/
theorem claim_C1_counterexample :
    (distributeIntegerTotal 7 (generateWeightsA 0 .balanced (fun _ => 0) (fun _ => 0))).sum ≠ 7 := by
  simp [generateWeightsA, distributeIntegerTotal]

/-- Claim C2 failing input, evaluated: `generateWeights(4, balanced)` with all four random
draws equal to 0 yields weights `[1/4, 1/4, 1/4, 1/4]`, and `distribute(2, ·)` rounds
each of the first three raw shares `0.5` up to 1, forcing the last bucket to absorb
`2 - 3 = -1`: the result `[1, 1, 1, -1]` has a negative entry. -/
theorem claim_C2_failing_eval :
    distribute 2 (generateWeightsB 4 .balanced (fun _ => 0)) = [1, 1, 1, -1] := by
  simp [generateWeightsB, rawWeightsB, factorOf, distribute, distributeGo, jsRound]
  norm_num [List.range_succ]

/-- Counterexample to claim C3: a bucket with negative weight is not given a 0 share. On
`total = 10`, `weights = [1.5, -0.5]`, both allocators give bucket 1 the share `-5`. -/
theorem claim_C3_counterexample :
    (distributeIntegerTotal 10 [3/2, -1/2]).getD 1 0 ≠ 0 ∧
    (distribute 10 [3/2, -1/2]).getD 1 0 ≠ 0 := by
  constructor
  · simp [distributeIntegerTotal, rawShares, floorShares, fracEntries, remainderOf, sortByFracDesc, insertDesc, List.enum, List.enumFrom]
    norm_num [Int.fract, bump]
  · simp [distribute, distributeGo, jsRound]
    norm_num

theorem distributeGo_sum (total : ℤ) (r : ℤ) (ws : List ℚ) (h : ws ≠ []) :
    (distributeGo total r ws).sum = r := by
  induction ws generalizing r with
  | nil => exact absurd rfl h
  | cons w ws ih =>
    cases ws with
    | nil => simp [distributeGo]
    | cons w2 ws2 =>
      simp only [distributeGo, List.sum_cons,
        ih (r - jsRound ((total : ℚ) * w)) (by simp)]
      omega

theorem distribute_sum (total : ℤ) (ws : List ℚ) (h : ws ≠ []) (ht : 0 ≤ total) :
    (distribute total ws).sum = total := by
  unfold distribute
  split
  · rename_i hcond
    have h0 : total = 0 := by
      rcases hcond with h1 | h1
      · omega
      · exact absurd (List.length_eq_zero.mp h1) h
    simp [h0]
  · exact distributeGo_sum total total ws h

theorem sum_map_mul (c : ℚ) (l : List ℚ) :
    (l.map (fun w => w * c)).sum = l.sum * c := by
  induction l with
  | nil => simp
  | cons w l ih => simp [ih, add_mul]

theorem sum_map_div (s : ℚ) (l : List ℚ) :
    (l.map (fun v => v / s)).sum = l.sum / s := by
  induction l with
  | nil => simp
  | cons v l ih => simp [ih, add_div]

theorem floors_sum_cast_le (l : List ℚ) :
    (((l.map (fun v => (⌊v⌋ : ℤ))).sum : ℤ) : ℚ) ≤ l.sum := by
  induction l with
  | nil => simp
  | cons v l ih =>
    simp only [List.map_cons, List.sum_cons, Int.cast_add]
    exact add_le_add (Int.floor_le v) ih

theorem sum_le_floors_add_length (l : List ℚ) :
    l.sum ≤ (((l.map (fun v => (⌊v⌋ : ℤ))).sum : ℤ) : ℚ) + l.length := by
  induction l with
  | nil => simp
  | cons v l ih =>
    simp only [List.map_cons, List.sum_cons, Int.cast_add, List.length_cons]
    have h1 : v ≤ (⌊v⌋ : ℚ) + 1 := le_of_lt (Int.lt_floor_add_one v)
    push_cast
    push_cast at ih
    linarith

theorem sum_lt_floors_add_length (l : List ℚ) (h : l ≠ []) :
    l.sum < (((l.map (fun v => (⌊v⌋ : ℤ))).sum : ℤ) : ℚ) + l.length := by
  cases l with
  | nil => exact absurd rfl h
  | cons v l =>
    have h1 : v < (⌊v⌋ : ℚ) + 1 := Int.lt_floor_add_one v
    have h2 := sum_le_floors_add_length l
    simp only [List.map_cons, List.sum_cons, Int.cast_add, List.length_cons]
    push_cast
    push_cast at h2
    linarith

theorem insertDesc_perm (x : ℕ × ℚ) (l : List (ℕ × ℚ)) :
    (insertDesc x l).Perm (x :: l) := by
  induction l with
  | nil => exact List.Perm.refl _
  | cons y ys ih =>
    unfold insertDesc
    split
    · exact List.Perm.refl _
    · exact (List.Perm.cons y ih).trans (List.Perm.swap x y ys)

theorem sortByFracDesc_perm (l : List (ℕ × ℚ)) : (sortByFracDesc l).Perm l := by
  induction l with
  | nil => exact List.Perm.refl _
  | cons x l ih =>
    exact (insertDesc_perm x (sortByFracDesc l)).trans (List.Perm.cons x ih)

theorem sum_set_getD_add_one (r : List ℤ) (j : ℕ) (h : j < r.length) :
    (r.set j (r.getD j 0 + 1)).sum = r.sum + 1 := by
  induction r generalizing j with
  | nil => simp at h
  | cons a r ih =>
    cases j with
    | zero =>
      simp only [List.set_cons_zero, List.getD_cons_zero, List.sum_cons]
      omega
    | succ j =>
      simp only [List.set_cons_succ, List.getD_cons_succ, List.sum_cons]
      rw [ih j (by simpa using h)]
      omega

theorem bump_sum (r : List ℤ) (e : ℕ × ℚ) (h : e.1 < r.length) :
    (bump r e).sum = r.sum + 1 := sum_set_getD_add_one r e.1 h

theorem foldl_bump_sum (l : List (ℕ × ℚ)) (r : List ℤ) (h : ∀ e ∈ l, e.1 < r.length) :
    (l.foldl bump r).sum = r.sum + l.length := by
  induction l generalizing r with
  | nil => simp
  | cons e l ih =>
    simp only [List.foldl_cons, List.length_cons]
    rw [ih (bump r e)
      (fun e2 he2 => by rw [bump_length]; exact h e2 (List.mem_cons_of_mem e he2))]
    rw [bump_sum r e (h e (List.mem_cons_self e l))]
    push_cast
    ring

theorem distributeIntegerTotal_pos_eq (total : ℤ) (ws : List ℚ) (h : ws ≠ [])
    (ht : 0 < total) :
    distributeIntegerTotal total ws =
      ((sortByFracDesc (fracEntries total ws)).take (remainderOf total ws).toNat).foldl
        bump (floorShares total ws) := by
  unfold distributeIntegerTotal
  rw [if_neg (by push_neg; exact ⟨by omega, h⟩)]

theorem fracEntries_map_fst (total : ℤ) (ws : List ℚ) :
    (fracEntries total ws).map Prod.fst = List.range ws.length := by
  unfold fracEntries
  rw [List.map_map]
  have h : (Prod.fst ∘ fun p : ℕ × ℚ => (p.1, p.2 - (⌊p.2⌋ : ℚ))) = Prod.fst := rfl
  rw [h, List.enum_map_fst]
  simp [rawShares]

theorem fracEntries_length (total : ℤ) (ws : List ℚ) :
    (fracEntries total ws).length = ws.length := by
  simp [fracEntries, rawShares]

theorem rawShares_sum (total : ℤ) (ws : List ℚ) (hw : ws.sum = 1) :
    (rawShares total ws).sum = total := by
  unfold rawShares
  rw [sum_map_mul, hw, one_mul]

theorem remainderOf_nonneg (total : ℤ) (ws : List ℚ) (hw : ws.sum = 1) :
    0 ≤ remainderOf total ws := by
  unfold remainderOf floorShares
  have h1 := floors_sum_cast_le (rawShares total ws)
  rw [rawShares_sum total ws hw] at h1
  have h3 : ((rawShares total ws).map (fun v => (⌊v⌋ : ℤ))).sum ≤ total := by exact_mod_cast h1
  omega

theorem remainderOf_lt_length (total : ℤ) (ws : List ℚ) (h : ws ≠ []) (hw : ws.sum = 1) :
    remainderOf total ws < ws.length := by
  unfold remainderOf floorShares
  have hne : rawShares total ws ≠ [] := by
    unfold rawShares
    simpa using h
  have h1 := sum_lt_floors_add_length (rawShares total ws) hne
  rw [rawShares_sum total ws hw] at h1
  have h3 : (rawShares total ws).length = ws.length := by simp [rawShares]
  rw [h3] at h1
  have h4 : total < ((rawShares total ws).map (fun v => (⌊v⌋ : ℤ))).sum + ws.length := by
    exact_mod_cast h1
  omega

theorem floorShares_length (total : ℤ) (ws : List ℚ) :
    (floorShares total ws).length = ws.length := by
  simp [floorShares, rawShares]

theorem take_sorted_mem_lt (total : ℤ) (ws : List ℚ) (k : ℕ) :
    ∀ e ∈ (sortByFracDesc (fracEntries total ws)).take k, e.1 < ws.length := by
  intro e he
  have he2 : e ∈ sortByFracDesc (fracEntries total ws) := List.mem_of_mem_take he
  have he3 : e ∈ fracEntries total ws := (sortByFracDesc_perm (fracEntries total ws)).subset he2
  have he4 := List.mem_map_of_mem Prod.fst he3
  rw [fracEntries_map_fst] at he4
  exact List.mem_range.mp he4

theorem distributeIntegerTotal_sum (total : ℤ) (ws : List ℚ) (h : ws ≠ [])
    (hw : ws.sum = 1) (ht : 0 ≤ total) :
    (distributeIntegerTotal total ws).sum = total := by
  rcases eq_or_lt_of_le ht with ht0 | htpos
  · unfold distributeIntegerTotal
    rw [if_pos (Or.inl (by omega))]
    rw [List.map_const' ws (0 : ℤ)]
    simp [← ht0]
  · rw [distributeIntegerTotal_pos_eq total ws h htpos]
    have hsortlen : (sortByFracDesc (fracEntries total ws)).length = ws.length := by
      rw [(sortByFracDesc_perm (fracEntries total ws)).length_eq, fracEntries_length]
    have hmem : ∀ e ∈ (sortByFracDesc (fracEntries total ws)).take (remainderOf total ws).toNat,
        e.1 < (floorShares total ws).length := by
      intro e he
      rw [floorShares_length]
      exact take_sorted_mem_lt total ws _ e he
    rw [foldl_bump_sum _ _ hmem]
    have hrnn := remainderOf_nonneg total ws hw
    have hrlt := remainderOf_lt_length total ws h hw
    have htklen :
        ((sortByFracDesc (fracEntries total ws)).take (remainderOf total ws).toNat).length
          = (remainderOf total ws).toNat := by
      rw [List.length_take, hsortlen]
      omega
    rw [htklen]
    unfold remainderOf at hrnn hrlt ⊢
    omega

theorem clampPos_pos (w : ℚ) : 0 < clampPos w := by
  unfold clampPos
  split
  · norm_num
  · rename_i hw
    exact not_le.mp hw

theorem rawWeightsA_length (count : ℤ) (style : DistributionStyle) (rand : ℕ → ℚ)
    (negLog : ℚ → ℚ) : (rawWeightsA count style rand negLog).length = count.toNat := by
  simp [rawWeightsA]

theorem rawWeightsA_pos (count : ℤ) (style : DistributionStyle) (rand : ℕ → ℚ)
    (negLog : ℚ → ℚ) : ∀ x ∈ rawWeightsA count style rand negLog, 0 < x := by
  intro x hx
  obtain ⟨i, _, rfl⟩ := List.mem_map.mp hx
  exact clampPos_pos _

theorem rawWeightsA_ne_nil (count : ℤ) (style : DistributionStyle) (rand : ℕ → ℚ)
    (negLog : ℚ → ℚ) (hc : 0 < count) : rawWeightsA count style rand negLog ≠ [] := by
  intro hnil
  have hlen := rawWeightsA_length count style rand negLog
  rw [hnil] at hlen
  simp only [List.length_nil] at hlen
  omega

theorem rawWeightsA_sum_pos (count : ℤ) (style : DistributionStyle) (rand : ℕ → ℚ)
    (negLog : ℚ → ℚ) (hc : 0 < count) : 0 < (rawWeightsA count style rand negLog).sum :=
  List.sum_pos _ (rawWeightsA_pos count style rand negLog)
    (rawWeightsA_ne_nil count style rand negLog hc)

theorem generateWeightsA_sum_eq_one (count : ℤ) (style : DistributionStyle) (rand : ℕ → ℚ)
    (negLog : ℚ → ℚ) (hc : 0 < count) :
    (generateWeightsA count style rand negLog).sum = 1 := by
  unfold generateWeightsA
  rw [if_neg (by omega), sum_map_div]
  exact div_self (ne_of_gt (rawWeightsA_sum_pos count style rand negLog hc))

theorem generateWeightsA_ne_nil (count : ℤ) (style : DistributionStyle) (rand : ℕ → ℚ)
    (negLog : ℚ → ℚ) (hc : 0 < count) : generateWeightsA count style rand negLog ≠ [] := by
  intro hnil
  have hlen := generateWeightsA_length count style rand negLog
  rw [hnil] at hlen
  simp only [List.length_nil] at hlen
  omega

theorem generateWeightsA_pos (count : ℤ) (style : DistributionStyle) (rand : ℕ → ℚ)
    (negLog : ℚ → ℚ) (hc : 0 < count) :
    ∀ w ∈ generateWeightsA count style rand negLog, 0 < w := by
  intro w hwmem
  unfold generateWeightsA at hwmem
  rw [if_neg (by omega)] at hwmem
  obtain ⟨v, hv, rfl⟩ := List.mem_map.mp hwmem
  exact div_pos (rawWeightsA_pos count style rand negLog v hv)
    (rawWeightsA_sum_pos count style rand negLog hc)

theorem factorOf_pos (variance : VarianceLevel) : 0 < factorOf variance := by
  cases variance <;> norm_num [factorOf]

theorem rawWeightsB_length (count : ℤ) (variance : VarianceLevel) (rand : ℕ → ℚ) :
    (rawWeightsB count variance rand).length = count.toNat := by
  simp [rawWeightsB]

theorem rawWeightsB_pos (count : ℤ) (variance : VarianceLevel) (rand : ℕ → ℚ)
    (hr : ∀ i, 0 ≤ rand i) : ∀ x ∈ rawWeightsB count variance rand, 0 < x := by
  intro x hx
  obtain ⟨i, _, rfl⟩ := List.mem_map.mp hx
  have h1 : 0 ≤ rand i * factorOf variance :=
    mul_nonneg (hr i) (le_of_lt (factorOf_pos variance))
  linarith

theorem rawWeightsB_ne_nil (count : ℤ) (variance : VarianceLevel) (rand : ℕ → ℚ)
    (hc : 0 < count) : rawWeightsB count variance rand ≠ [] := by
  intro hnil
  have hlen := rawWeightsB_length count variance rand
  rw [hnil] at hlen
  simp only [List.length_nil] at hlen
  omega

theorem rawWeightsB_sum_pos (count : ℤ) (variance : VarianceLevel) (rand : ℕ → ℚ)
    (hc : 0 < count) (hr : ∀ i, 0 ≤ rand i) : 0 < (rawWeightsB count variance rand).sum :=
  List.sum_pos _ (rawWeightsB_pos count variance rand hr)
    (rawWeightsB_ne_nil count variance rand hc)

theorem generateWeightsB_sum_eq_one (count : ℤ) (variance : VarianceLevel) (rand : ℕ → ℚ)
    (hc : 0 < count) (hr : ∀ i, 0 ≤ rand i) :
    (generateWeightsB count variance rand).sum = 1 := by
  unfold generateWeightsB
  rw [if_neg (by omega), sum_map_div]
  exact div_self (ne_of_gt (rawWeightsB_sum_pos count variance rand hc hr))

theorem generateWeightsB_ne_nil (count : ℤ) (variance : VarianceLevel) (rand : ℕ → ℚ)
    (hc : 0 < count) : generateWeightsB count variance rand ≠ [] := by
  intro hnil
  have hlen := generateWeightsB_length count variance rand
  rw [hnil] at hlen
  simp only [List.length_nil] at hlen
  omega

theorem generateWeightsB_pos (count : ℤ) (variance : VarianceLevel) (rand : ℕ → ℚ)
    (hc : 0 < count) (hr : ∀ i, 0 ≤ rand i) :
    ∀ w ∈ generateWeightsB count variance rand, 0 < w := by
  intro w hwmem
  unfold generateWeightsB at hwmem
  rw [if_neg (by omega)] at hwmem
  obtain ⟨v, hv, rfl⟩ := List.mem_map.mp hwmem
  exact div_pos (rawWeightsB_pos count variance rand hr v hv)
    (rawWeightsB_sum_pos count variance rand hc hr)

/-- Claim C1 (amended): conservation holds for every positive bucket count: for every
`count > 0`, every `total ≥ 0`, every variance profile and every sequence of
random draws, the allocations of both implementations sum exactly to the total.
(For `count = 0` the weight vector is empty and the allocation sums to 0, so the
claim's `N = 0` case holds only when the total is also 0 — see the
counterexample.) -/
theorem claim_C1_conservation (count total : ℤ) (style : DistributionStyle)
    (variance : VarianceLevel) (randA randB : ℕ → ℚ) (negLog : ℚ → ℚ)
    (hc : 0 < count) (ht : 0 ≤ total) :
    (distributeIntegerTotal total (generateWeightsA count style randA negLog)).sum = total ∧
    (distribute total (generateWeightsB count variance randB)).sum = total := by
  constructor
  · exact distributeIntegerTotal_sum total _
      (generateWeightsA_ne_nil count style randA negLog hc)
      (generateWeightsA_sum_eq_one count style randA negLog hc) ht
  · exact distribute_sum total _ (generateWeightsB_ne_nil count variance randB hc) ht

/-- Witness for C1 at count = 3, total = 7, balanced profiles, all draws 0. -/
theorem claim_C1_conservation_witness :
    (0 : ℤ) < 3 ∧ (0 : ℤ) ≤ 7 ∧
    (distributeIntegerTotal 7 (generateWeightsA 3 .balanced (fun _ => 0) (fun _ => 0))).sum = 7 ∧
    (distribute 7 (generateWeightsB 3 .balanced (fun _ => 0))).sum = 7 :=
  ⟨by decide, by decide,
    (claim_C1_conservation 3 7 .balanced .balanced (fun _ => 0) (fun _ => 0) (fun _ => 0)
      (by decide) (by decide)).1,
    (claim_C1_conservation 3 7 .balanced .balanced (fun _ => 0) (fun _ => 0) (fun _ => 0)
      (by decide) (by decide)).2⟩

/-- Claim C4: for every positive count and every profile, both weight generators return
a vector that sums to exactly 1 (in the exact-rational model of the float
arithmetic; "within floating-point tolerance" in the source) with all entries
strictly positive. For the page.tsx variant the `Math.random()` draws are
non-negative, which is hypothesis `hr`; the part_000 variant needs no such
hypothesis because it clamps non-positive raw draws to a positive epsilon. -/
theorem claim_C4_normalization (count : ℤ) (style : DistributionStyle)
    (variance : VarianceLevel) (randA randB : ℕ → ℚ) (negLog : ℚ → ℚ)
    (hc : 0 < count) (hr : ∀ i, 0 ≤ randB i) :
    ((generateWeightsA count style randA negLog).sum = 1 ∧
      ∀ w ∈ generateWeightsA count style randA negLog, 0 < w) ∧
    ((generateWeightsB count variance randB).sum = 1 ∧
      ∀ w ∈ generateWeightsB count variance randB, 0 < w) :=
  ⟨⟨generateWeightsA_sum_eq_one count style randA negLog hc,
    generateWeightsA_pos count style randA negLog hc⟩,
   ⟨generateWeightsB_sum_eq_one count variance randB hc hr,
    generateWeightsB_pos count variance randB hc hr⟩⟩

/-- Witness for C4 at count = 2, balanced profiles, all draws 0. -/
theorem claim_C4_normalization_witness :
    (0 : ℤ) < 2 ∧
    ((generateWeightsA 2 .balanced (fun _ => 0) (fun _ => 0)).sum = 1 ∧
      ∀ w ∈ generateWeightsA 2 .balanced (fun _ => 0) (fun _ => 0), 0 < w) ∧
    ((generateWeightsB 2 .balanced (fun _ => 0)).sum = 1 ∧
      ∀ w ∈ generateWeightsB 2 .balanced (fun _ => 0), 0 < w) :=
  ⟨by decide,
    (claim_C4_normalization 2 .balanced .balanced (fun _ => 0) (fun _ => 0) (fun _ => 0)
      (by decide) (fun _ => le_refl 0)).1,
    (claim_C4_normalization 2 .balanced .balanced (fun _ => 0) (fun _ => 0) (fun _ => 0)
      (by decide) (fun _ => le_refl 0)).2⟩

/-- Claim C3 (amended): for every weight vector containing a negative entry, both
allocators still return normally — they are total functions producing a vector of
the weights' length — but they do NOT zero out negative-weight buckets: such a
bucket receives its computed (possibly negative) share, as the counterexample
shows. -/
theorem claim_C3_returns_normally (total : ℤ) (ws : List ℚ)
    (hneg : ∃ w ∈ ws, w < 0) :
    (distributeIntegerTotal total ws).length = ws.length ∧
    (distribute total ws).length = ws.length :=
  ⟨distributeIntegerTotal_length total ws, distribute_length total ws⟩

/-- Witness for C3 at total = 10, weights = [3/2, -1/2]. -/
theorem claim_C3_returns_normally_witness :
    (∃ w ∈ [(3 : ℚ)/2, -1/2], w < 0) ∧
    (distributeIntegerTotal 10 [3/2, -1/2]).length = [(3 : ℚ)/2, -1/2].length ∧
    (distribute 10 [3/2, -1/2]).length = [(3 : ℚ)/2, -1/2].length :=
  ⟨⟨-1/2, by norm_num, by norm_num⟩,
    claim_C3_returns_normally 10 [3/2, -1/2] ⟨-1/2, by norm_num, by norm_num⟩⟩

theorem getD_set_self (r : List ℤ) (j : ℕ) (a : ℤ) (h : j < r.length) :
    (r.set j a).getD j 0 = a := by
  rw [List.getD_eq_getElem?_getD, List.getElem?_set_self h]
  rfl

theorem getD_set_ne (r : List ℤ) (i j : ℕ) (a : ℤ) (h : j ≠ i) :
    (r.set j a).getD i 0 = r.getD i 0 := by
  rw [List.getD_eq_getElem?_getD, List.getElem?_set_ne h, ← List.getD_eq_getElem?_getD]

theorem foldl_bump_getD (l : List (ℕ × ℚ)) (r : List ℤ) (i : ℕ)
    (hnd : (l.map Prod.fst).Nodup) (hlt : ∀ e ∈ l, e.1 < r.length) :
    (l.foldl bump r).getD i 0 =
      r.getD i 0 + (if i ∈ l.map Prod.fst then 1 else 0) := by
  induction l generalizing r with
  | nil => simp
  | cons e l ih =>
    simp only [List.foldl_cons, List.map_cons]
    have hnd2 : (l.map Prod.fst).Nodup := (List.nodup_cons.mp hnd).2
    have hlt2 : ∀ e2 ∈ l, e2.1 < (bump r e).length := by
      intro e2 he2
      rw [bump_length]
      exact hlt e2 (List.mem_cons_of_mem e he2)
    rw [ih (bump r e) hnd2 hlt2]
    by_cases hie : i = e.1
    · subst hie
      rw [if_neg (List.nodup_cons.mp hnd).1, if_pos (List.mem_cons_self _ _)]
      unfold bump
      rw [getD_set_self r e.1 _ (hlt e (List.mem_cons_self e l))]
      omega
    · have hmemiff : (i ∈ e.1 :: l.map Prod.fst) ↔ (i ∈ l.map Prod.fst) := by
        simp [List.mem_cons, hie]
      rw [if_congr hmemiff rfl rfl]
      unfold bump
      rw [getD_set_ne r i e.1 _ (fun hh => hie hh.symm)]

theorem floorShares_getD (total : ℤ) (ws : List ℚ) (i : ℕ) (hi : i < ws.length) :
    (floorShares total ws).getD i 0 = ⌊ws.getD i 0 * (total : ℚ)⌋ := by
  unfold floorShares rawShares
  rw [List.getD_eq_getElem?_getD, List.getElem?_map, List.getElem?_map,
    List.getElem?_eq_getElem hi, List.getD_eq_getElem?_getD, List.getElem?_eq_getElem hi]
  rfl

/-- Claim C10: per-bucket rounding bound of the largest-remainder allocator. For every
positive total, every weight vector with non-negative entries and every index in
range, the allocated share is either the floor of the raw share `w * total` or
that floor plus one — no bucket receives more than one unit above its floor. -/
theorem claim_C10_bucket_bound (total : ℤ) (ws : List ℚ) (i : ℕ)
    (ht : 0 < total) (hw : ∀ w ∈ ws, 0 ≤ w) (hi : i < ws.length) :
    (distributeIntegerTotal total ws).getD i 0 = ⌊ws.getD i 0 * (total : ℚ)⌋ ∨
    (distributeIntegerTotal total ws).getD i 0 = ⌊ws.getD i 0 * (total : ℚ)⌋ + 1 := by
  have hne : ws ≠ [] := by
    intro hh
    rw [hh] at hi
    simp at hi
  rw [distributeIntegerTotal_pos_eq total ws hne ht]
  have hnd0 : ((sortByFracDesc (fracEntries total ws)).map Prod.fst).Nodup := by
    have hperm2 : ((sortByFracDesc (fracEntries total ws)).map Prod.fst).Perm
        ((fracEntries total ws).map Prod.fst) :=
      (sortByFracDesc_perm (fracEntries total ws)).map Prod.fst
    have hnd1 : ((fracEntries total ws).map Prod.fst).Nodup := by
      rw [fracEntries_map_fst]
      exact List.nodup_range _
    exact hperm2.nodup_iff.mpr hnd1
  have hnd : (((sortByFracDesc (fracEntries total ws)).take
      (remainderOf total ws).toNat).map Prod.fst).Nodup :=
    ((List.take_sublist _ _).map Prod.fst).nodup hnd0
  have hmem : ∀ e ∈ (sortByFracDesc (fracEntries total ws)).take (remainderOf total ws).toNat,
      e.1 < (floorShares total ws).length := by
    intro e he
    rw [floorShares_length]
    exact take_sorted_mem_lt total ws _ e he
  rw [foldl_bump_getD _ _ i hnd hmem, floorShares_getD total ws i hi]
  split
  · right
    rfl
  · left
    omega

/-- Witness for C10 at total = 10, weights = [1/2, 3/10, 1/5], index 0. -/
theorem claim_C10_bucket_bound_witness :
    (0 : ℤ) < 10 ∧ (∀ w ∈ [(1 : ℚ)/2, 3/10, 1/5], 0 ≤ w) ∧ 0 < [(1 : ℚ)/2, 3/10, 1/5].length ∧
    ((distributeIntegerTotal 10 [1/2, 3/10, 1/5]).getD 0 0 =
        ⌊[(1 : ℚ)/2, 3/10, 1/5].getD 0 0 * (10 : ℚ)⌋ ∨
      (distributeIntegerTotal 10 [1/2, 3/10, 1/5]).getD 0 0 =
        ⌊[(1 : ℚ)/2, 3/10, 1/5].getD 0 0 * (10 : ℚ)⌋ + 1) :=
  ⟨by decide, by norm_num, by decide,
    claim_C10_bucket_bound 10 [1/2, 3/10, 1/5] 0 (by decide) (by norm_num) (by decide)⟩

theorem splitCSV_false_comma (acc rest : List Char) :
    splitCSV false acc (',' :: rest) = acc.reverse :: splitCSV false [] rest := rfl

theorem splitCSV_false_openq (acc rest : List Char) :
    splitCSV false acc ('"' :: rest) = splitCSV true acc rest := rfl

theorem splitCSV_false_other (acc rest : List Char) (c : Char) (hcm : c ≠ ',') (hq : c ≠ '"') :
    splitCSV false acc (c :: rest) = splitCSV false (c :: acc) rest := by
  rw [splitCSV.eq_2, if_neg hcm, if_neg hq]

theorem splitCSV_true_other (acc rest : List Char) (c : Char) (hq : c ≠ '"') :
    splitCSV true acc (c :: rest) = splitCSV true (c :: acc) rest := by
  cases rest with
  | nil => rw [splitCSV.eq_3, if_neg hq]
  | cons c2 rest2 => rw [splitCSV.eq_4, if_neg hq]

theorem splitCSV_true_close (acc rest2 : List Char) (c2 : Char) (hq : c2 ≠ '"') :
    splitCSV true acc ('"' :: c2 :: rest2) = splitCSV false acc (c2 :: rest2) := by
  rw [splitCSV.eq_4, if_pos rfl, if_neg hq]

theorem needsQuote_eq_false (s : List Char) (h : needsQuote s = false) :
    ∀ c ∈ s, c ≠ '"' ∧ c ≠ ',' := by
  intro c hc
  unfold needsQuote at h
  rw [List.any_eq_false] at h
  have h2 := h c hc
  constructor <;> intro hh <;> subst hh <;> simp at h2

theorem splitCSV_plain (f : List Char) (hf : ∀ c ∈ f, c ≠ '"' ∧ c ≠ ',')
    (rest : List Char) : ∀ acc,
    splitCSV false acc (f ++ rest) = splitCSV false (f.reverse ++ acc) rest := by
  induction f with
  | nil =>
    intro acc
    simp
  | cons c f ih =>
    intro acc
    obtain ⟨hq, hcomma⟩ := hf c (List.mem_cons_self c f)
    rw [List.cons_append, splitCSV_false_other acc _ c hcomma hq,
      ih (fun c2 h2 => hf c2 (List.mem_cons_of_mem c h2)) (c :: acc)]
    simp

theorem splitCSV_quoted (f rest : List Char) (hrest : rest.head? ≠ some '"') :
    ∀ acc, splitCSV true acc (escQuotes f ++ '"' :: rest) =
      splitCSV false (f.reverse ++ acc) rest := by
  induction f with
  | nil =>
    intro acc
    simp only [escQuotes, List.nil_append, List.reverse_nil]
    cases rest with
    | nil => rfl
    | cons c2 rest2 =>
      have hc2 : c2 ≠ '"' := by
        intro hh
        apply hrest
        simp [hh]
      exact splitCSV_true_close acc rest2 c2 hc2
  | cons c f ih =>
    intro acc
    by_cases hc : c = '"'
    · subst hc
      have h1 : escQuotes ('"' :: f) = '"' :: '"' :: escQuotes f := by simp [escQuotes]
      rw [h1, List.cons_append, List.cons_append]
      rw [show splitCSV true acc ('"' :: '"' :: (escQuotes f ++ '"' :: rest)) =
          splitCSV true ('"' :: acc) (escQuotes f ++ '"' :: rest) from rfl]
      rw [ih ('"' :: acc)]
      simp
    · have h1 : escQuotes (c :: f) = c :: escQuotes f := by simp [escQuotes, hc]
      rw [h1, List.cons_append, splitCSV_true_other _ _ c hc, ih (c :: acc)]
      simp

theorem parseRecord_joinComma (fields : List (List Char)) (h : fields ≠ []) :
    parseRecord (joinComma (fields.map csvEscape)) = fields := by
  induction fields with
  | nil => exact absurd rfl h
  | cons f fs ih =>
    cases fs with
    | nil =>
      show splitCSV false [] (joinComma [csvEscape f]) = [f]
      rw [show joinComma [csvEscape f] = csvEscape f from rfl]
      unfold csvEscape
      split
      · rw [splitCSV_false_openq, show (['"'] : List Char) = '"' :: [] from rfl,
          splitCSV_quoted f [] (by simp) []]
        rw [splitCSV.eq_1]
        simp
      · rename_i hq
        have hf := needsQuote_eq_false f (by simpa using hq)
        conv_lhs => rw [← List.append_nil f]
        rw [splitCSV_plain f hf [] []]
        rw [splitCSV.eq_1]
        simp
    | cons f2 fs2 =>
      have ihr := ih (by simp)
      show splitCSV false [] (joinComma (csvEscape f :: (f2 :: fs2).map csvEscape)) =
        f :: f2 :: fs2
      rw [show joinComma (csvEscape f :: (f2 :: fs2).map csvEscape) =
          csvEscape f ++ ',' :: joinComma ((f2 :: fs2).map csvEscape) from by
        simp [joinComma, List.map_cons]]
      by_cases hq : needsQuote f
      · rw [show csvEscape f = '"' :: (escQuotes f ++ ['"']) from by simp [csvEscape, hq]]
        rw [List.cons_append, splitCSV_false_openq]
        rw [show (escQuotes f ++ ['"']) ++ ',' :: joinComma ((f2 :: fs2).map csvEscape) =
            escQuotes f ++ '"' :: ',' :: joinComma ((f2 :: fs2).map csvEscape) from by
          simp]
        rw [splitCSV_quoted f (',' :: joinComma ((f2 :: fs2).map csvEscape)) (by simp) []]
        rw [splitCSV_false_comma]
        rw [show splitCSV false [] (joinComma ((f2 :: fs2).map csvEscape)) =
            parseRecord (joinComma ((f2 :: fs2).map csvEscape)) from rfl]
        rw [ihr]
        simp
      · have hf := needsQuote_eq_false f (by simpa using hq)
        rw [show csvEscape f = f from by simp [csvEscape, hq]]
        rw [splitCSV_plain f hf (',' :: joinComma ((f2 :: fs2).map csvEscape)) []]
        rw [splitCSV_false_comma]
        rw [show splitCSV false [] (joinComma ((f2 :: fs2).map csvEscape)) =
            parseRecord (joinComma ((f2 :: fs2).map csvEscape)) from rfl]
        rw [ihr]
        simp

/-- Claim C8 (amended): every data-row cell value is escaped — values containing a
comma, double-quote or newline are wrapped in double quotes with internal quotes
doubled — so re-parsing any record built by joining escaped cells with the
standard parser recovers every original cell value verbatim; in particular every
`exportCsv` data row round-trips. Header cells, however, are joined without
escaping, so a header label containing a comma is not recovered (see the
counterexample); the claim holds for data rows, not for the header row. -/
theorem claim_C8_row_roundtrip :
    (∀ fields : List (List Char), fields ≠ [] →
      parseRecord (joinComma (fields.map csvEscape)) = fields) ∧
    (∀ (secondaryEnabled : Bool) (r : CreativeRow),
      parseRecord (joinComma ((rowCols secondaryEnabled r).map csvEscape)) =
        rowCols secondaryEnabled r) := by
  refine ⟨parseRecord_joinComma, fun enab r => parseRecord_joinComma _ ?_⟩
  cases enab <;> simp [rowCols]

/-- Witness for C8: the cell values `ab,c` and `d"e` survive the round trip. -/
theorem claim_C8_row_roundtrip_witness :
    (["ab,c".data, "d\"e".data] ≠ ([] : List (List Char))) ∧
    parseRecord (joinComma (["ab,c".data, "d\"e".data].map csvEscape)) =
      ["ab,c".data, "d\"e".data] :=
  ⟨by simp, claim_C8_row_roundtrip.1 ["ab,c".data, "d\"e".data] (by simp)⟩

/-- Counterexample to claim C8: `exportCsv` joins the header cells without escaping. With
the user-controlled primary event label `Paid, Events`, the serialized header row
is the unquoted text `Creative,Impressions,Clicks,Installs,Paid, Events`, and the
standard parser splits it into six fields, so the original header field value is
not recovered verbatim — the claim fails for this field of the serialized text. -/
theorem claim_C8_counterexample :
    (exportCsvLines "Paid, Events".data "Second Event".data false
        [⟨"Creative 1".data, 1, 2, 3, 4, 0⟩]).head? =
      some ("Creative,Impressions,Clicks,Installs,Paid, Events".data) ∧
    parseRecord ("Creative,Impressions,Clicks,Installs,Paid, Events".data) ≠
      ["Creative".data, "Impressions".data, "Clicks".data, "Installs".data,
        "Paid, Events".data] := by
  constructor
  · decide
  · decide

end CreativeReport
